import Mathlib

/-!
Verification development for the audio transcription pipeline
(`utils/transcribe.py`, `utils/openai_transcribe.py`).

The Python functions are shallowly embedded as executable Lean
definitions.  Durations, timestamps and time bases are modelled as
rationals (the Python values are floats obtained from exact rational
container metadata; every concrete value used below is represented
exactly).  The speech-recognition capability (`model.transcribe`) is a
black box: its per-chunk outcome is an input of the model, either a
failure (the Python call raises) or a list of segment texts together
with the optional `language` attribute of `info`.
-/

/-- Characters stripped by Python `str.strip()` (ASCII whitespace). -/
def isPySpace (c : Char) : Bool :=
  c = ' ' || c = '\t' || c = '\n' || c = '\r' || c = '\x0b' || c = '\x0c'

/-- Strip `isPySpace` characters from both ends of a character list. -/
def stripChars (l : List Char) : List Char :=
  ((l.dropWhile isPySpace).reverse.dropWhile isPySpace).reverse

/-- Model of Python `str.strip()`. -/
def pyStrip (s : String) : String :=
  String.mk (stripChars s.data)

/-- Model of Python `" ".join(l)`. -/
def joinSpace : List String → String
  | [] => ""
  | [t] => t
  | t :: rest => t ++ " " ++ joinSpace rest

/-- Python truthiness of a string (`if t`): true iff non-empty. -/
def pyTruthy (t : String) : Bool := t != ""

/-- Outcome of one `model.transcribe(chunk_path, ...)` call
(`transcribe.py` lines 160-165): either the call raises, or it yields
the list of segment texts (`seg.text` in iteration order) and the
optional `language` attribute of `info` (absent attribute = `none`,
read by `getattr(info, "language", "unknown")`). -/
inductive ChunkResult where
  | fail : ChunkResult
  | ok (segs : List String) (lang : Option String) : ChunkResult
deriving DecidableEq, Repr

/-- The per-chunk loop of `transcribe_audio` (`transcribe.py` lines
159-177): accumulates `transcript_lines` (each `seg.text.strip()`),
and tracks the last bound `info` (outer `none` = the Python variable
`info` was never assigned).  A raised recognition error propagates:
the whole loop returns `none`. -/
def runLoop : List ChunkResult → List String → Option (Option String) →
    Option (List String × Option (Option String))
  | [], acc, info => some (acc, info)
  | ChunkResult.fail :: _, _, _ => none
  | ChunkResult.ok segs lang :: rest, acc, _ =>
      runLoop rest (acc ++ segs.map pyStrip) (some lang)

/-- The result-assembly part of `transcribe_audio` (`transcribe.py`
lines 155-193) as a function of the per-chunk recognition outcomes, in
chunk order.  `none` models the call raising (a recognition error
propagates out of the function; an empty chunk list would leave the
Python name `info` unbound at line 186).  Line 185 builds the
transcript: `" ".join([t for t in transcript_lines if t]).strip()`;
line 186 re-reads `getattr(info, "language", "unknown")`. -/
def transcribe_audio_merge (chunks : List ChunkResult) : Option (String × String) :=
  match runLoop chunks [] none with
  | none => none
  | some (_, none) => none
  | some (lines, some infoLang) =>
      some (pyStrip (joinSpace (lines.filter pyTruthy)), infoLang.getD "unknown")

/-- Text pieces carried by one recognition outcome. -/
def chunkPieces : ChunkResult → List String
  | ChunkResult.fail => []
  | ChunkResult.ok segs _ => segs

/-- Recorded language of one recognition outcome (the optional
`language` attribute of its `info`). -/
def chunkLang : ChunkResult → Option String
  | ChunkResult.fail => none
  | ChunkResult.ok _ lang => lang

/-- Modelled from the spec (for comparison with the code): the final
transcript text is the fragments' text pieces in sequence-index order,
each stripped of leading/trailing whitespace, empty pieces dropped,
joined with single spaces. -/
def specTranscript (pieces : List String) : String :=
  joinSpace ((pieces.map pyStrip).filter pyTruthy)

/-- The value of the Python variable `info` after the loop has
processed a chunk list (last successful assignment wins; the outer
`none` means `info` was never bound). -/
def lastInfoAux : List ChunkResult → Option (Option String) → Option (Option String)
  | [], info => info
  | ChunkResult.fail :: rest, info => lastInfoAux rest info
  | ChunkResult.ok _ lang :: rest, _ => lastInfoAux rest (some lang)

/-- Python `int()` applied to a rational: truncation toward zero. -/
def pyInt (q : ℚ) : ℤ :=
  if q < 0 then ⌈q⌉ else ⌊q⌋

/-- Probed metadata of the audio stream (`transcribe.py` lines 14-16):
`duration` in container units and `time_base`; either may be missing
(`none`) or Python-falsy (zero). -/
structure AudioStreamMeta where
  duration : Option ℤ
  time_base : Option ℚ
deriving DecidableEq, Repr

/-- Outcome of probing a file with `av.open` (`transcribe.py` lines
12-14): the open itself can raise, the container can lack an audio
stream, or it yields stream metadata. -/
inductive ProbeResult where
  | openFail : ProbeResult
  | opened (stream : Option AudioStreamMeta) : ProbeResult
deriving DecidableEq, Repr

/-- `_get_audio_duration` (`transcribe.py` lines 10-19): returns
`duration * time_base` when the stream, its duration and its time base
are all truthy, and `0` in every other case (including when `av.open`
raises: the body is wrapped in `try/except Exception: pass`). -/
def _get_audio_duration (p : ProbeResult) : ℚ :=
  match p with
  | ProbeResult.openFail => 0
  | ProbeResult.opened none => 0
  | ProbeResult.opened (some st) =>
      match st.duration, st.time_base with
      | some d, some tb =>
          if d = 0 then 0
          else if tb = 0 then 0
          else (d : ℚ) * tb
      | _, _ => 0

/-- A probe whose container cannot be opened, has no audio stream, or
lacks the duration or time-base metadata. -/
def probeFailed (p : ProbeResult) : Prop :=
  p = ProbeResult.openFail ∨ p = ProbeResult.opened none ∨
    ∃ st, p = ProbeResult.opened (some st) ∧
      (st.duration = none ∨ st.time_base = none)

/-- The chunk plan of `_chunk_audio` (`transcribe.py` lines 85-96):
if `total_duration <= chunk_duration_seconds` the whole stream is one
segment (range `[0, total_duration)`); otherwise
`num_chunks = int(total_duration / chunk_duration_seconds + 1)` ranges
`[i*c, min((i+1)*c, total_duration))`. -/
def chunk_plan (d : ℚ) (c : ℤ) : List (ℚ × ℚ) :=
  if d ≤ (c : ℚ) then [(0, d)]
  else
    (List.range (pyInt (d / (c : ℚ) + 1)).toNat).map
      (fun (i : ℕ) => (((i : ℚ) * (c : ℚ)), min (((i : ℚ) + 1) * (c : ℚ)) d))

/-- The chunking decision of `transcribe_audio` (`transcribe.py` lines
143-150): chunk only when the probed duration exceeds 1200 seconds,
otherwise the single whole-stream segment. -/
def transcribe_audio_plan (d : ℚ) : List (ℚ × ℚ) :=
  if d > 1200 then chunk_plan d 1200 else [(0, d)]

/-- One decoded audio frame as seen by `_chunk_audio`: its optional
presentation timestamp `pts` (container units) and an identifier
standing for its sample data. -/
structure Frame where
  pts : Option ℤ
  sid : ℕ
deriving DecidableEq, Repr

/-- The frame loop of one chunk iteration (`transcribe.py` lines
103-117) over the remaining decode stream.  `container.decode` is a
single demuxing position shared by all chunk iterations, so the loop
consumes frames: a frame with `pts is None` is consumed and skipped
(`continue`), a frame with `frame_time >= end_time` is consumed and
triggers `break`, a frame with `frame_time < start_time` is consumed
and skipped, any other frame is written to the chunk.  Returns the
frames written to this chunk and the remaining stream. -/
def materializeChunk (tb s e : ℚ) : List Frame → List Frame × List Frame
  | [] => ([], [])
  | ⟨none, _⟩ :: rest => materializeChunk tb s e rest
  | ⟨some p, i⟩ :: rest =>
      if e ≤ (p : ℚ) * tb then ([], rest)
      else if (p : ℚ) * tb < s then materializeChunk tb s e rest
      else
        let r := materializeChunk tb s e rest
        (⟨some p, i⟩ :: r.1, r.2)

/-- The chunk loop of `_chunk_audio` (`transcribe.py` lines 91-123):
materializes each planned range in order, threading the decode
position through. -/
def materializeChunks (tb : ℚ) : List (ℚ × ℚ) → List Frame → List (List Frame)
  | [], _ => []
  | (s, e) :: rs, frames =>
    let r := materializeChunk tb s e frames
    r.1 :: materializeChunks tb rs r.2

/-- A frame whose timestamp lies in `[s, e)` (written to the chunk). -/
def frameIn (tb s e : ℚ) (f : Frame) : Bool :=
  match f.pts with
  | none => false
  | some p => decide (s ≤ (p : ℚ) * tb) && decide ((p : ℚ) * tb < e)

/-- A frame that does not stop the chunk loop for end time `e`:
timestamp absent or strictly before `e`. -/
def frameBefore (tb e : ℚ) (f : Frame) : Bool :=
  match f.pts with
  | none => true
  | some p => decide ((p : ℚ) * tb < e)

/-- Remove a file id from the set of live temporary files. -/
def fsRemove (fs : List ℕ) (x : ℕ) : List ℕ :=
  fs.filter (fun y => y != x)

/-- The recognition loop of `transcribe_audio` (`transcribe.py` lines
159-177) acting on the live temporary files.  File id 0 is the
whole-stream WAV; each successfully processed chunk file other than
the WAV is removed (lines 173-177); a recognition failure raises,
leaving the current and later chunk files live. -/
def recogLoop (recog : ℕ → Bool) : List ℕ → ℕ → List ℕ → Bool × List ℕ
  | [], _, fs => (true, fs)
  | c :: rest, j, fs =>
    if recog j then
      recogLoop recog rest (j + 1) (if c = 0 then fs else fsRemove fs c)
    else (false, fs)

/-- Temporary-file effect of one `transcribe_audio` call.  Inputs:
whether `_convert_to_wav` succeeds (on failure it removes its own WAV
and raises, lines 59-65); the probed duration `d`; whether
`_chunk_audio` raises after creating `k` chunk temp files (its
`except` clause, lines 126-128, then returns `[wav_path]` and removes
nothing); and the per-chunk recognition outcomes.  File id 0 is the
WAV, ids `1..n` the chunk files.  Returns (call returned normally,
temp files still on disk): the `finally` (lines 178-183) and the
duplicate removal (lines 188-191) delete the WAV on every path that
reaches the loop. -/
def transcribeAudioFS (convOk : Bool) (d : ℚ) (chunkErr : Option ℕ)
    (recog : ℕ → Bool) : Bool × List ℕ :=
  if convOk = false then (false, [])
  else
    let created : List ℕ :=
      if d ≤ 1200 then []
      else match chunkErr with
        | some k => List.range' 1 k
        | none => List.range' 1 (pyInt (d / 1200 + 1)).toNat
    let chunkList : List ℕ :=
      if d ≤ 1200 then [0]
      else match chunkErr with
        | some _ => [0]
        | none => List.range' 1 (pyInt (d / 1200 + 1)).toNat
    let r := recogLoop recog chunkList 0 (0 :: created)
    (r.1, fsRemove r.2 0)

/-- Model of Python `s.split('.')` on a character list: maximal runs
between occurrences of `'.'` (always a non-empty list of parts). -/
def splitDot : List Char → List (List Char)
  | [] => [[]]
  | c :: rest =>
    match splitDot rest with
    | [] => [[]]
    | h :: t => if c = '.' then [] :: h :: t else (c :: h) :: t

/-- Model of Python `str.lower()` for ASCII letters. -/
def asciiLower (c : Char) : Char :=
  if 'A' ≤ c ∧ c ≤ 'Z' then Char.ofNat (c.toNat + 32) else c

/-- The formats accepted by `transcribe_audio_openai`
(`openai_transcribe.py` line 28). -/
def valid_formats : List String :=
  ["mp3", "mp4", "mpeg", "mpga", "wma", "wav", "webm", "m4a", "aac", "flac", "ogg"]

/-- `transcribe_audio_openai` (`openai_transcribe.py` lines 6-55) on
the paths that matter for its result: the API-key check, the extension
check, and the returned pair.  `apiText` is the black-box API's
transcript text.  Line 53: `detected_lang = language if language and
language != "auto" else "unknown"`. -/
def transcribe_audio_openai (audio_path api_key : String)
    (language : Option String) (apiText : String) : Except String (String × String) :=
  if api_key = "" then Except.error "OpenAI API key is required"
  else
    let file_format :=
      String.mk (((splitDot audio_path.data).getLastD []).map asciiLower)
    if (valid_formats.contains file_format) = false then
      Except.error ("Unsupported audio format: " ++ file_format)
    else
      Except.ok (apiText,
        match language with
        | some l => if l ≠ "" ∧ l ≠ "auto" then l else "unknown"
        | none => "unknown")

/-! ### Helper lemmas about the recognition loop -/

/-- A raised recognition error anywhere in the chunk list propagates:
the loop yields no result. -/
theorem runLoop_eq_none_of_fail_mem (chunks : List ChunkResult)
    (h : ChunkResult.fail ∈ chunks) :
    ∀ acc info, runLoop chunks acc info = none := by
  induction chunks with
  | nil => cases h
  | cons c rest ih =>
    intro acc info
    cases c with
    | fail => rfl
    | ok segs lang =>
      have hrest : ChunkResult.fail ∈ rest := by
        rcases List.mem_cons.mp h with h1 | h1
        · cases h1
        · exact h1
      simpa [runLoop] using ih hrest (acc ++ segs.map pyStrip) (some lang)

/-- C1 (amended): `transcribe_audio` has no per-segment error recovery:
if recognition fails on any segment the error propagates and the call
aborts with no transcript, discarding text from segments that had
already succeeded; a transcript of the successful segments is returned
only when every segment succeeds. -/
theorem claim_C1_failure_aborts (chunks : List ChunkResult)
    (h : ChunkResult.fail ∈ chunks) :
    transcribe_audio_merge chunks = none := by
  unfold transcribe_audio_merge
  rw [runLoop_eq_none_of_fail_mem chunks h]

/-- Witness for C1 (amended) at a concrete input. -/
theorem claim_C1_failure_aborts_witness :
    transcribe_audio_merge
      [ChunkResult.ok ["a"] (some "en"), ChunkResult.fail,
       ChunkResult.ok ["b"] (some "en")] = none :=
  claim_C1_failure_aborts _ (by decide)

/-- C1 counterexample: one segment succeeds with text "hello" and the
next fails, yet the call returns nothing at all (the recognition error
propagates) instead of a transcript containing the successful
segment's text. -/
theorem claim_C1_counterexample :
    transcribe_audio_merge [ChunkResult.ok ["hello"] (some "en"), ChunkResult.fail]
      = none := rfl

/-- C5 (amended): if every segment's recognition call fails,
`transcribe_audio` does not return a result at all: the first
segment's error propagates out of the call (there is no
"no transcript produced" result; the empty-text result arises only
when every segment succeeds with no non-empty text). -/
theorem claim_C5_all_fail_raises (chunks : List ChunkResult)
    (h1 : chunks ≠ []) (h2 : ∀ c ∈ chunks, c = ChunkResult.fail) :
    transcribe_audio_merge chunks = none := by
  cases chunks with
  | nil => exact absurd rfl h1
  | cons c rest =>
    have hc : c = ChunkResult.fail := h2 c (List.mem_cons_self c rest)
    subst hc
    rfl

/-- Witness for C5 (amended) at a concrete input. -/
theorem claim_C5_all_fail_raises_witness :
    transcribe_audio_merge [ChunkResult.fail, ChunkResult.fail] = none :=
  claim_C5_all_fail_raises _ (by decide) (by decide)

/-- C5 counterexample: with a single segment whose recognition fails
(hence every segment fails), the call yields no result (the exception
propagates), not a returned pair `("", "unknown")`. -/
theorem claim_C5_counterexample :
    transcribe_audio_merge [ChunkResult.fail] = none ∧
    transcribe_audio_merge [ChunkResult.fail] ≠ some ("", "unknown") := by
  constructor
  · rfl
  · intro h
    cases h

/-- C3: whenever the probed total duration is at most
`max_segment_seconds = 1200` (in particular when it is unknown or
zero, probed as `0`), both the chunking decision in `transcribe_audio`
and the plan of `_chunk_audio` produce exactly one segment spanning
the whole stream, the single range `[0, total_duration)`. -/
theorem claim_C3_single_range (d : ℚ) (h : d ≤ 1200) :
    transcribe_audio_plan d = [(0, d)] ∧ chunk_plan d 1200 = [(0, d)] := by
  constructor
  · unfold transcribe_audio_plan
    rw [if_neg (not_lt.mpr h)]
  · unfold chunk_plan
    rw [if_pos (by exact_mod_cast h)]

/-- Witness for C3 at the spec's 5-minute scenario. -/
theorem claim_C3_single_range_witness :
    transcribe_audio_plan 300 = [(0, 300)] ∧ chunk_plan 300 1200 = [(0, 300)] :=
  claim_C3_single_range 300 (by norm_num)

/-- C9: `_get_audio_duration` is total by construction (every branch,
including the raising ones, is mapped to a value) and returns `0`
whenever the container cannot be opened or the stream, its duration or
its time base is missing; a probe-failed input therefore always takes
the single-segment path of `transcribe_audio` instead of aborting. -/
theorem claim_C9_duration_total (p : ProbeResult) (h : probeFailed p) :
    _get_audio_duration p = 0 ∧
    transcribe_audio_plan (_get_audio_duration p) = [(0, 0)] := by
  have h0 : _get_audio_duration p = 0 := by
    rcases h with h1 | h1 | ⟨st, h1, h2⟩
    · subst h1; rfl
    · subst h1; rfl
    · subst h1
      obtain ⟨dur, tb⟩ := st
      rcases h2 with h2 | h2
      · subst h2; rfl
      · subst h2; cases dur <;> rfl
  refine ⟨h0, ?_⟩
  rw [h0]
  unfold transcribe_audio_plan
  rw [if_neg (by norm_num)]

/-- Witness for C9 at a concrete failing probe. -/
theorem claim_C9_duration_total_witness :
    _get_audio_duration ProbeResult.openFail = 0 ∧
    transcribe_audio_plan (_get_audio_duration ProbeResult.openFail) = [(0, 0)] :=
  claim_C9_duration_total ProbeResult.openFail (Or.inl rfl)

/-- C10: whenever `transcribe_audio_openai` returns, the detected
language is never derived from the audio or the API response: it is
the caller's `language` argument when that is non-empty and not
"auto", and "unknown" otherwise (regardless of path, key and
transcript text). -/
theorem claim_C10_language_not_from_audio (audio_path api_key : String)
    (language : Option String) (apiText t dl : String)
    (h : transcribe_audio_openai audio_path api_key language apiText
          = Except.ok (t, dl)) :
    (∀ l, language = some l → l ≠ "" → l ≠ "auto" → dl = l) ∧
    ((language = none ∨ language = some "" ∨ language = some "auto") →
      dl = "unknown") := by
  unfold transcribe_audio_openai at h
  by_cases hk : api_key = ""
  · rw [if_pos hk] at h; cases h
  · rw [if_neg hk] at h
    by_cases hf : (valid_formats.contains
        (String.mk (((splitDot audio_path.data).getLastD []).map asciiLower))) = false
    · rw [if_pos hf] at h; cases h
    · rw [if_neg hf] at h
      simp only [Except.ok.injEq, Prod.mk.injEq] at h
      obtain ⟨-, hdl⟩ := h
      constructor
      · rintro l rfl hne hna
        rw [← hdl]
        simp [hne, hna]
      · rintro (rfl | rfl | rfl) <;> simp_all

/-- Witness for C10 at a concrete returning call. -/
theorem claim_C10_witness :
    (∀ l, (some "es" : Option String) = some l → l ≠ "" → l ≠ "auto" → "es" = l) ∧
    (((some "es" : Option String) = none ∨ (some "es" : Option String) = some "" ∨
       (some "es" : Option String) = some "auto") → "es" = "unknown") :=
  claim_C10_language_not_from_audio "a.mp3" "key" (some "es") "text" "text" "es" (by rfl)

/-! ### Boundary frames and timestamp-less frames in `_chunk_audio` -/

/-- C6 (amended): a frame whose timestamp exactly equals the end of
the currently materializing range is never written into the current
range, but it is not written into the next range either: the `break`
at line 109 consumes it from the shared decode stream, so it is
dropped entirely.  Under frames before it that do not stop the loop,
the chunk receives exactly the in-range frames among them and the
stream resumes strictly after the boundary frame. -/
theorem claim_C6_boundary_frame_dropped (tb s e : ℚ) (pre post : List Frame)
    (p : ℤ) (i : ℕ)
    (hpre : ∀ g ∈ pre, frameBefore tb e g = true)
    (hb : e ≤ (p : ℚ) * tb) :
    materializeChunk tb s e (pre ++ ⟨some p, i⟩ :: post)
      = (pre.filter (frameIn tb s e), post) ∧
    (⟨some p, i⟩ : Frame) ∉ pre.filter (frameIn tb s e) := by
  constructor
  · induction pre with
    | nil =>
      simp only [List.nil_append, List.filter_nil]
      rw [materializeChunk, if_pos hb]
    | cons g rest ih =>
      have hg := hpre g (List.mem_cons_self g rest)
      have hrest : ∀ x ∈ rest, frameBefore tb e x = true :=
        fun x hx => hpre x (List.mem_cons_of_mem g hx)
      obtain ⟨gp, gi⟩ := g
      cases gp with
      | none =>
        rw [List.cons_append, materializeChunk, ih hrest]
        simp [frameIn]
      | some q =>
        have hq : (q : ℚ) * tb < e := by
          simpa [frameBefore] using hg
        rw [List.cons_append, materializeChunk, if_neg (not_le.mpr hq)]
        by_cases hlt : (q : ℚ) * tb < s
        · rw [if_pos hlt, ih hrest]
          have hfi : frameIn tb s e ⟨some q, gi⟩ = false := by
            simp [frameIn, not_le.mpr hlt]
          simp [List.filter_cons, hfi]
        · rw [if_neg hlt, ih hrest]
          have hfi : frameIn tb s e ⟨some q, gi⟩ = true := by
            simp [frameIn, not_lt.mp hlt, hq]
          simp [List.filter_cons, hfi]
  · intro hmem
    have hf := List.of_mem_filter hmem
    simp [frameIn, not_lt.mpr hb] at hf

/-- Witness for C6 (amended) at a concrete stream with a frame exactly
at the 1200-second boundary. -/
theorem claim_C6_boundary_frame_dropped_witness :
    materializeChunk 1 0 1200
      ([⟨some 0, 0⟩] ++ (⟨some 1200, 1⟩ : Frame) :: [⟨some 1250, 2⟩])
      = ([(⟨some 0, 0⟩ : Frame)].filter (frameIn 1 0 1200), [⟨some 1250, 2⟩]) ∧
    (⟨some 1200, 1⟩ : Frame) ∉ [(⟨some 0, 0⟩ : Frame)].filter (frameIn 1 0 1200) :=
  claim_C6_boundary_frame_dropped 1 0 1200 [⟨some 0, 0⟩] [⟨some 1250, 2⟩] 1200 1
    (by norm_num [frameBefore]) (by norm_num)

/-- C6 counterexample: chunk ranges `[0,1200)` and `[1200,1300)`, one
frame at time `0` and one exactly at the boundary time `1200`.  The
boundary frame is claimed to be written into the next range; in fact
the first range's loop consumes it on `break` and the second range
receives nothing, so the boundary frame appears in no range at all. -/
theorem claim_C6_counterexample :
    materializeChunks 1 [(0, 1200), (1200, 1300)]
        [⟨some 0, 0⟩, ⟨some 1200, 1⟩] = [[⟨some 0, 0⟩], []] ∧
    ∀ chunk ∈ materializeChunks 1 [(0, 1200), (1200, 1300)]
        [⟨some 0, 0⟩, ⟨some 1200, 1⟩], (⟨some 1200, 1⟩ : Frame) ∉ chunk := by
  have h : materializeChunks 1 [(0, 1200), (1200, 1300)]
      [⟨some 0, 0⟩, ⟨some 1200, 1⟩] = [[⟨some 0, 0⟩], []] := by
    norm_num [materializeChunks, materializeChunk]
  refine ⟨h, ?_⟩
  rw [h]
  simp

/-- No frame written into any chunk lacks a timestamp: a `pts is None`
frame is consumed by the `continue` at lines 104-105 and never
written. -/
theorem mem_materializeChunk_pts_isSome (tb s e : ℚ) :
    ∀ (frames : List Frame) (f : Frame),
      f ∈ (materializeChunk tb s e frames).1 → f.pts ≠ none := by
  intro frames
  induction frames with
  | nil => intro f hf; simp [materializeChunk] at hf
  | cons g rest ih =>
    intro f hf
    obtain ⟨gp, gi⟩ := g
    cases gp with
    | none => exact ih f (by simpa [materializeChunk] using hf)
    | some q =>
      rw [materializeChunk] at hf
      by_cases h1 : e ≤ (q : ℚ) * tb
      · rw [if_pos h1] at hf; simp at hf
      · rw [if_neg h1] at hf
        by_cases h2 : (q : ℚ) * tb < s
        · rw [if_pos h2] at hf; exact ih f hf
        · rw [if_neg h2] at hf
          simp only [List.mem_cons] at hf
          rcases hf with rfl | hf
          · simp
          · exact ih f hf

/-- C7 (amended): a decoded frame with no presentation timestamp is
tolerated (the loop never fails: `materializeChunks` is total), but it
is not assigned to the currently active range: it is skipped by the
`continue` at lines 104-105, so its samples appear in no output
segment. -/
theorem claim_C7_no_pts_never_written (tb : ℚ) (ranges : List (ℚ × ℚ)) :
    ∀ (frames : List Frame) (chunk : List Frame) (f : Frame),
      chunk ∈ materializeChunks tb ranges frames → f ∈ chunk → f.pts ≠ none := by
  induction ranges with
  | nil => intro frames chunk f hc; simp [materializeChunks] at hc
  | cons r rs ih =>
    intro frames chunk f hc hf
    obtain ⟨s, e⟩ := r
    rw [materializeChunks] at hc
    simp only [List.mem_cons] at hc
    rcases hc with rfl | hc
    · exact mem_materializeChunk_pts_isSome tb s e frames f hf
    · exact ih _ chunk f hc hf

/-- Witness for C7 (amended) at a concrete materialization. -/
theorem claim_C7_no_pts_never_written_witness :
    (⟨some 0, 0⟩ : Frame).pts ≠ none :=
  claim_C7_no_pts_never_written 1 [(0, 10)] [⟨some 0, 0⟩] [⟨some 0, 0⟩]
    ⟨some 0, 0⟩ (by norm_num [materializeChunks, materializeChunk]) (by simp)

/-- C7 counterexample: a single frame with no timestamp, two planned
ranges.  The claim says the frame is assigned to the currently active
range so its samples appear in some output segment; in fact both
materialized chunks are empty and the frame appears in neither. -/
theorem claim_C7_counterexample :
    materializeChunks 1 [(0, 1200), (1200, 1300)] [⟨none, 7⟩] = [[], []] ∧
    ∀ chunk ∈ materializeChunks 1 [(0, 1200), (1200, 1300)] [⟨none, 7⟩],
      (⟨none, 7⟩ : Frame) ∉ chunk := by
  have h : materializeChunks 1 [(0, 1200), (1200, 1300)] [⟨none, 7⟩]
      = [[], []] := by
    norm_num [materializeChunks, materializeChunk]
  refine ⟨h, ?_⟩
  rw [h]
  simp

/-! ### Temporary-file bookkeeping of `transcribe_audio` -/

/-- When every recognition call succeeds, the loop completes and has
removed every non-WAV chunk file it processed. -/
theorem recogLoop_all_true (recog : ℕ → Bool) (hall : ∀ j, recog j = true) :
    ∀ (L : List ℕ) (j : ℕ) (fs : List ℕ),
      recogLoop recog L j fs
        = (true, L.foldl (fun a c => if c = 0 then a else fsRemove a c) fs) := by
  intro L
  induction L with
  | nil => intro j fs; rfl
  | cons c rest ih =>
    intro j fs
    rw [recogLoop, if_pos (hall j), ih, List.foldl_cons]

/-- Removing a list of non-WAV file ids one by one filters them out. -/
theorem foldl_remove_eq_filter :
    ∀ (L fs : List ℕ), (∀ c ∈ L, c ≠ 0) →
      L.foldl (fun a c => if c = 0 then a else fsRemove a c) fs
        = fs.filter (fun x => !(L.contains x)) := by
  intro L
  induction L with
  | nil => intro fs _; simp
  | cons c rest ih =>
    intro fs h
    have hc : c ≠ 0 := h c (List.mem_cons_self c rest)
    rw [List.foldl_cons, if_neg hc, ih _ (fun x hx => h x (List.mem_cons_of_mem c hx))]
    rw [fsRemove, List.filter_filter]
    apply List.filter_congr
    intro x _
    simp only [List.contains_cons, Bool.not_or, bne]
    cases hd : decide (x = c) <;> cases he : decide (x ∈ rest) <;> simp [hd, he]

/-- C8 (amended): no temporary file remains after `transcribe_audio`
returns on these paths: conversion failure (the WAV is removed by the
conversion's own handler), the single-segment path (`d ≤ 1200`,
whatever the recognition outcome), and normal chunked completion with
no chunking error and every recognition call succeeding.  The
guarantee does NOT extend to a chunking error or to a failing
recognition call in the chunked path (see the counterexample), which
is why the claim as stated is false. -/
theorem claim_C8_cleanup_on_success (d : ℚ) (chunkErr : Option ℕ) (recog : ℕ → Bool) :
    (transcribeAudioFS false d chunkErr recog).2 = [] ∧
    (d ≤ 1200 → (transcribeAudioFS true d chunkErr recog).2 = []) ∧
    ((∀ j, recog j = true) → (transcribeAudioFS true d none recog).2 = []) := by
  refine ⟨rfl, ?_, ?_⟩
  · intro h
    cases hrec : recog 0 <;>
      simp [transcribeAudioFS, h, recogLoop, hrec, fsRemove]
  · intro hall
    by_cases hd : d ≤ 1200
    · cases hrec : recog 0 <;>
        simp [transcribeAudioFS, hd, recogLoop, hrec, fsRemove]
    · have hmem : ∀ c ∈ List.range' 1 (pyInt (d / 1200 + 1)).toNat, c ≠ 0 := by
        intro c hc
        have := List.mem_range'_1.mp hc
        omega
      have hnotmem : (0 : ℕ) ∉ List.range' 1 (pyInt (d / 1200 + 1)).toNat := by
        intro h0
        exact absurd rfl (hmem 0 h0)
      simp only [transcribeAudioFS, if_neg (by simp : ¬(true = false)), if_neg hd]
      rw [recogLoop_all_true recog hall, foldl_remove_eq_filter _ _ hmem]
      rw [List.filter_cons]
      have h0 : (!(List.range' 1 (pyInt (d / 1200 + 1)).toNat).contains 0) = true := by
        simp only [List.contains, Bool.not_eq_true', List.elem_eq_mem,
          decide_eq_false_iff_not]
        exact hnotmem
      rw [if_pos h0]
      have hnil : (List.range' 1 (pyInt (d / 1200 + 1)).toNat).filter
          (fun x => !(List.range' 1 (pyInt (d / 1200 + 1)).toNat).contains x) = [] := by
        rw [List.filter_eq_nil_iff]
        intro a ha
        simp [List.contains, List.elem_eq_mem, ha]
      rw [hnil]
      simp [fsRemove]

/-- Witness for C8 (amended): a 2000-second input, chunked cleanly,
every recognition succeeding, leaves no temporary file. -/
theorem claim_C8_cleanup_on_success_witness :
    (transcribeAudioFS true 2000 none (fun _ => true)).2 = [] :=
  (claim_C8_cleanup_on_success 2000 none (fun _ => true)).2.2 (fun _ => rfl)

/-- C8 counterexample: a 2000-second input is split into two chunk
files (ids 1 and 2); the first chunk's recognition call fails, the
exception propagates, the `finally` removes only the whole-stream WAV
(id 0), and both chunk temp files remain on disk when the call
returns — contradicting "no temporary files remain" on the
recognition-failure exit path. -/
theorem claim_C8_counterexample :
    transcribeAudioFS true 2000 none (fun _ => false) = (false, [1, 2]) ∧
    (transcribeAudioFS true 2000 none (fun _ => false)).2 ≠ [] := by
  have hpy : pyInt ((2000 : ℚ) / 1200 + 1) = 2 := by
    unfold pyInt
    rw [if_neg (by norm_num)]
    norm_num
  have h : transcribeAudioFS true 2000 none (fun _ => false) = (false, [1, 2]) := by
    simp only [transcribeAudioFS, if_neg (by simp : ¬(true = false)),
      if_neg (by norm_num : ¬((2000 : ℚ) ≤ 1200)), hpy]
    rfl
  exact ⟨h, by rw [h]; simp⟩

theorem head_dropWhile_not (p : Char → Bool) :
    ∀ (l : List Char) (c : Char), (l.dropWhile p).head? = some c → p c = false := by
  intro l
  induction l with
  | nil => intro c h; simp at h
  | cons a t ih =>
    intro c h
    by_cases hp : p a = true
    · rw [List.dropWhile_cons, if_pos hp] at h
      exact ih c h
    · rw [List.dropWhile_cons, if_neg hp] at h
      simp only [List.head?_cons, Option.some.injEq] at h
      subst h
      exact Bool.eq_false_iff.mpr hp

theorem getLast_dropWhile_eq (p : Char → Bool) (l : List Char) (c : Char)
    (h : (l.dropWhile p).getLast? = some c) : l.getLast? = some c := by
  obtain ⟨pre, hpre⟩ := List.dropWhile_suffix (l := l) p
  have hne : l.dropWhile p ≠ [] := by
    intro hnil
    rw [hnil] at h
    simp at h
  rw [← hpre, List.getLast?_append_of_ne_nil pre hne]
  exact h

theorem stripChars_head (l : List Char) (c : Char)
    (h : (stripChars l).head? = some c) : isPySpace c = false := by
  unfold stripChars at h
  rw [List.head?_reverse] at h
  have h2 := getLast_dropWhile_eq isPySpace (l.dropWhile isPySpace).reverse c h
  rw [List.getLast?_reverse] at h2
  exact head_dropWhile_not isPySpace l c h2

theorem stripChars_getLast (l : List Char) (c : Char)
    (h : (stripChars l).getLast? = some c) : isPySpace c = false := by
  unfold stripChars at h
  rw [List.getLast?_reverse] at h
  exact head_dropWhile_not isPySpace (l.dropWhile isPySpace).reverse c h

theorem dropWhile_eq_self_of_head (p : Char → Bool) (l : List Char)
    (h : ∀ c, l.head? = some c → p c = false) : l.dropWhile p = l := by
  cases l with
  | nil => rfl
  | cons a t =>
    rw [List.dropWhile_cons, if_neg]
    rw [h a rfl]
    simp

theorem stripChars_eq_self (l : List Char)
    (h1 : ∀ c, l.head? = some c → isPySpace c = false)
    (h2 : ∀ c, l.getLast? = some c → isPySpace c = false) :
    stripChars l = l := by
  unfold stripChars
  rw [dropWhile_eq_self_of_head isPySpace l h1]
  rw [dropWhile_eq_self_of_head isPySpace l.reverse
    (fun c hc => h2 c (by rwa [List.head?_reverse] at hc))]
  exact List.reverse_reverse l

theorem joinSpace_data_ne_nil :
    ∀ (L : List String), L ≠ [] → (∀ s ∈ L, s.data ≠ []) →
      (joinSpace L).data ≠ [] := by
  intro L
  induction L with
  | nil => intro h; exact absurd rfl h
  | cons t rest ih =>
    intro _ hne
    cases rest with
    | nil =>
      show t.data ≠ []
      exact hne t (List.mem_cons_self t [])
    | cons r rs =>
      show ((t ++ " ") ++ joinSpace (r :: rs)).data ≠ []
      rw [String.data_append, String.data_append]
      simp

theorem joinSpace_head (L : List String)
    (hne : ∀ s ∈ L, s.data ≠ [])
    (hhead : ∀ s ∈ L, ∀ c, s.data.head? = some c → isPySpace c = false) :
    ∀ c, (joinSpace L).data.head? = some c → isPySpace c = false := by
  induction L with
  | nil => intro c h; simp [joinSpace] at h
  | cons t rest ih =>
    intro c h
    cases rest with
    | nil =>
      exact hhead t (List.mem_cons_self t []) c h
    | cons r rs =>
      have ht : t.data ≠ [] := hne t (List.mem_cons_self t _)
      have hj : (joinSpace (t :: r :: rs)).data
          = t.data ++ (" " ++ joinSpace (r :: rs)).data := by
        show ((t ++ " ") ++ joinSpace (r :: rs)).data
          = t.data ++ (" " ++ joinSpace (r :: rs)).data
        rw [String.data_append, String.data_append, String.data_append,
          List.append_assoc]
      rw [hj, List.head?_append_of_ne_nil t.data ht] at h
      exact hhead t (List.mem_cons_self t _) c h

theorem joinSpace_getLast (L : List String)
    (hne : ∀ s ∈ L, s.data ≠ [])
    (hlast : ∀ s ∈ L, ∀ c, s.data.getLast? = some c → isPySpace c = false) :
    ∀ c, (joinSpace L).data.getLast? = some c → isPySpace c = false := by
  induction L with
  | nil => intro c h; simp [joinSpace] at h
  | cons t rest ih =>
    intro c h
    cases rest with
    | nil =>
      exact hlast t (List.mem_cons_self t []) c h
    | cons r rs =>
      have hjne : (joinSpace (r :: rs)).data ≠ [] :=
        joinSpace_data_ne_nil (r :: rs) (by simp)
          (fun s hs => hne s (List.mem_cons_of_mem t hs))
      have hj : (joinSpace (t :: r :: rs)).data
          = (t.data ++ [' ']) ++ (joinSpace (r :: rs)).data := by
        show ((t ++ " ") ++ joinSpace (r :: rs)).data
          = (t.data ++ [' ']) ++ (joinSpace (r :: rs)).data
        rw [String.data_append, String.data_append]
      rw [hj, List.getLast?_append_of_ne_nil _ hjne] at h
      exact ih (fun s hs => hne s (List.mem_cons_of_mem t hs))
        (fun s hs => hlast s (List.mem_cons_of_mem t hs)) c h

theorem pyStrip_of_stripped (L : List String)
    (h : ∀ s ∈ L, ∃ x, s = pyStrip x) (hne : ∀ s ∈ L, s.data ≠ []) :
    pyStrip (joinSpace L) = joinSpace L := by
  cases L with
  | nil => rfl
  | cons t rest =>
    have hhead : ∀ s ∈ t :: rest, ∀ c, s.data.head? = some c → isPySpace c = false := by
      intro s hs c hc
      obtain ⟨x, rfl⟩ := h s hs
      exact stripChars_head x.data c hc
    have hlast : ∀ s ∈ t :: rest, ∀ c, s.data.getLast? = some c → isPySpace c = false := by
      intro s hs c hc
      obtain ⟨x, rfl⟩ := h s hs
      exact stripChars_getLast x.data c hc
    unfold pyStrip
    rw [stripChars_eq_self (joinSpace (t :: rest)).data
      (joinSpace_head (t :: rest) hne hhead)
      (joinSpace_getLast (t :: rest) hne hlast)]

theorem runLoop_some_all_ok :
    ∀ (chunks : List ChunkResult) (acc : List String) (info : Option (Option String))
      (r : List String × Option (Option String)),
      runLoop chunks acc info = some r → ∀ c ∈ chunks, c ≠ ChunkResult.fail := by
  intro chunks
  induction chunks with
  | nil => intro acc info r _ c hc; cases hc
  | cons c rest ih =>
    intro acc info r hr x hx
    cases c with
    | fail => cases hr
    | ok segs lang =>
      rcases List.mem_cons.mp hx with rfl | hx'
      · intro hfalse; cases hfalse
      · exact ih _ _ r hr x hx'

theorem runLoop_ok_eq :
    ∀ (chunks : List ChunkResult), (∀ c ∈ chunks, c ≠ ChunkResult.fail) →
      ∀ (acc : List String) (info : Option (Option String)),
        runLoop chunks acc info
          = some (acc ++ ((chunks.map chunkPieces).flatten).map pyStrip,
                  lastInfoAux chunks info) := by
  intro chunks
  induction chunks with
  | nil => intro _ acc info; simp [runLoop, lastInfoAux]
  | cons c rest ih =>
    intro h acc info
    cases c with
    | fail => exact absurd rfl (h ChunkResult.fail (List.mem_cons_self _ _))
    | ok segs lang =>
      rw [runLoop, ih (fun x hx => h x (List.mem_cons_of_mem _ hx))]
      simp [chunkPieces, lastInfoAux, List.append_assoc]

theorem lastInfoAux_eq :
    ∀ (chunks : List ChunkResult) (info : Option (Option String)),
      (∀ c ∈ chunks, c ≠ ChunkResult.fail) →
      lastInfoAux chunks info
        = (match chunks.getLast? with
           | some c => some (chunkLang c)
           | none => info) := by
  intro chunks
  induction chunks with
  | nil => intro info _; rfl
  | cons c rest ih =>
    intro info h
    cases c with
    | fail => exact absurd rfl (h ChunkResult.fail (List.mem_cons_self _ _))
    | ok segs lang =>
      show lastInfoAux rest (some lang) = _
      rw [ih (some lang) (fun x hx => h x (List.mem_cons_of_mem _ hx))]
      cases rest with
      | nil => rfl
      | cons r rs =>
        rw [List.getLast?_cons_cons]
        cases hg : (r :: rs).getLast? with
        | none => exact absurd (List.getLast?_eq_none_iff.mp hg) (by simp)
        | some x => rfl

/-- C4: for every returning run of `transcribe_audio`, the transcript
text equals the fragments' text pieces in sequence-index order, each
stripped of leading/trailing whitespace, empty pieces dropped, joined
with single spaces (the trailing `.strip()` on line 185 is a no-op on
that join); and the detected language is the one recorded from the
last successfully processed fragment (`getattr(info, "language",
"unknown")`), or "unknown" if no fragment succeeded (a case in which
the call in fact never returns). -/
theorem claim_C4_merge (chunks : List ChunkResult) (t lang : String)
    (h : transcribe_audio_merge chunks = some (t, lang)) :
    t = specTranscript ((chunks.map chunkPieces).flatten) ∧
    lang = (match chunks.getLast? with
            | some c => (chunkLang c).getD "unknown"
            | none => "unknown") := by
  have hok := runLoop_some_all_ok chunks [] none
  unfold transcribe_audio_merge at h
  cases hrl : runLoop chunks [] none with
  | none => rw [hrl] at h; cases h
  | some pr =>
    obtain ⟨lines, info⟩ := pr
    cases info with
    | none => rw [hrl] at h; cases h
    | some infoLang =>
      rw [hrl] at h
      simp only [Option.some.injEq, Prod.mk.injEq] at h
      obtain ⟨ht, hlang⟩ := h
      have hall := hok _ hrl
      rw [runLoop_ok_eq chunks hall [] none] at hrl
      simp only [List.nil_append, Option.some.injEq, Prod.mk.injEq] at hrl
      obtain ⟨hlines, hinfo⟩ := hrl
      rw [lastInfoAux_eq chunks none hall] at hinfo
      cases hg : chunks.getLast? with
      | none => rw [hg] at hinfo; cases hinfo
      | some c =>
        rw [hg] at hinfo
        have hinfoLang : chunkLang c = infoLang := by
          injection hinfo
        constructor
        · rw [← ht, ← hlines]
          subst hlines
          unfold specTranscript
          apply pyStrip_of_stripped
          · intro s hs
            have := List.mem_of_mem_filter hs
            rcases List.mem_map.mp this with ⟨x, _, rfl⟩
            exact ⟨x, rfl⟩
          · intro s hs
            have hp := List.of_mem_filter hs
            have : s ≠ "" := by
              intro hrfl
              rw [hrfl] at hp
              simp [pyTruthy] at hp
            intro hdata
            apply this
            cases s
            simp_all
        · show lang = (chunkLang c).getD "unknown"
          rw [hinfoLang]
          exact hlang.symm

theorem claim_C4_merge_witness :
    "hi there" = specTranscript
      (([ChunkResult.ok [" hi ", "", "there "] (some "en")].map chunkPieces).flatten) ∧
    "en" = (match [ChunkResult.ok [" hi ", "", "there "] (some "en")].getLast? with
            | some c => (chunkLang c).getD "unknown"
            | none => "unknown") :=
  claim_C4_merge [ChunkResult.ok [" hi ", "", "there "] (some "en")]
    "hi there" "en" (by rfl)

/-! ### The chunk plan for long inputs -/

/-- Length and element formula of the plan computed by `_chunk_audio`
for `total_duration > chunk_duration_seconds`:
`num_chunks = int(d/c + 1) = floor(d/c) + 1` ranges
`[i*c, min((i+1)*c, d))`. -/
theorem chunk_plan_length_core (d : ℚ) (c : ℤ) (hc : 0 < c) (hd : (c : ℚ) < d) :
    (chunk_plan d c).length = (⌊d / (c : ℚ)⌋ + 1).toNat ∧
    ∀ i : ℕ, (i : ℤ) < ⌊d / (c : ℚ)⌋ + 1 →
      (chunk_plan d c)[i]?
        = some ((i : ℚ) * (c : ℚ), min (((i : ℚ) + 1) * (c : ℚ)) d) := by
  have hc' : (0 : ℚ) < (c : ℚ) := by exact_mod_cast hc
  have hq : (1 : ℚ) < d / (c : ℚ) := (one_lt_div hc').mpr hd
  have hfl : 1 ≤ ⌊d / (c : ℚ)⌋ := Int.le_floor.mpr (by exact_mod_cast hq.le)
  have hpy : pyInt (d / (c : ℚ) + 1) = ⌊d / (c : ℚ)⌋ + 1 := by
    unfold pyInt
    rw [if_neg (by push_neg; positivity), Int.floor_add_one]
  have hplan : chunk_plan d c
      = (List.range (⌊d / (c : ℚ)⌋ + 1).toNat).map
          (fun (i : ℕ) => (((i : ℚ) * (c : ℚ)), min (((i : ℚ) + 1) * (c : ℚ)) d)) := by
    rw [chunk_plan, if_neg (not_le.mpr hd), hpy]
  constructor
  · rw [hplan, List.length_map, List.length_range]
  · intro i hi
    have hiN : i < (⌊d / (c : ℚ)⌋ + 1).toNat := Int.lt_toNat.mpr hi
    rw [hplan, List.getElem?_map, List.getElem?_range hiN]
    rfl

/-- C2 (amended): for every duration `d` strictly above the positive
segment bound `c`, the plan has exactly `floor(d/c) + 1` ranges (not
`ceil(d/c)`), the `i`-th being `[i*c, min((i+1)*c, d))`; the ranges
are contiguous with union exactly `[0, d)`, pairwise non-overlapping
with strictly increasing starts, and every range except possibly the
last is non-empty.  When `d` is not an exact multiple of `c` the count
equals `ceil(d/c)` and every range is non-empty — the original claim
holds; when `d` is an exact multiple the count is `ceil(d/c) + 1` and
the final range is the empty `[d, d)`. -/
theorem claim_C2_plan_properties (d : ℚ) (c : ℤ) (hc : 0 < c) (hd : (c : ℚ) < d) :
    (chunk_plan d c).length = (⌊d / (c : ℚ)⌋ + 1).toNat ∧
    (∀ i : ℕ, (i : ℤ) < ⌊d / (c : ℚ)⌋ + 1 →
      (chunk_plan d c)[i]?
        = some ((i : ℚ) * (c : ℚ), min (((i : ℚ) + 1) * (c : ℚ)) d)) ∧
    (∀ x : ℚ, (0 ≤ x ∧ x < d) ↔
      ∃ i : ℕ, (i : ℤ) < ⌊d / (c : ℚ)⌋ + 1 ∧
        (i : ℚ) * (c : ℚ) ≤ x ∧ x < min (((i : ℚ) + 1) * (c : ℚ)) d) ∧
    (∀ i j : ℕ, i < j → (j : ℤ) < ⌊d / (c : ℚ)⌋ + 1 →
      (i : ℚ) * (c : ℚ) < (j : ℚ) * (c : ℚ) ∧
      min (((i : ℚ) + 1) * (c : ℚ)) d ≤ (j : ℚ) * (c : ℚ)) ∧
    (∀ i : ℕ, (i : ℤ) + 1 < ⌊d / (c : ℚ)⌋ + 1 →
      (i : ℚ) * (c : ℚ) < min (((i : ℚ) + 1) * (c : ℚ)) d) ∧
    ((¬ ∃ k : ℤ, d = (k : ℚ) * (c : ℚ)) →
      ⌊d / (c : ℚ)⌋ + 1 = ⌈d / (c : ℚ)⌉ ∧
      ∀ i : ℕ, (i : ℤ) < ⌊d / (c : ℚ)⌋ + 1 →
        (i : ℚ) * (c : ℚ) < min (((i : ℚ) + 1) * (c : ℚ)) d) ∧
    ((∃ k : ℤ, d = (k : ℚ) * (c : ℚ)) →
      ⌊d / (c : ℚ)⌋ + 1 = ⌈d / (c : ℚ)⌉ + 1 ∧
      (chunk_plan d c)[(⌊d / (c : ℚ)⌋).toNat]? = some (d, d)) := by
  have hc' : (0 : ℚ) < (c : ℚ) := by exact_mod_cast hc
  have hq : (1 : ℚ) < d / (c : ℚ) := (one_lt_div hc').mpr hd
  have hfl : 1 ≤ ⌊d / (c : ℚ)⌋ := Int.le_floor.mpr (by exact_mod_cast hq.le)
  have hqc : d / (c : ℚ) * (c : ℚ) = d := div_mul_cancel₀ d hc'.ne'
  obtain ⟨hlen, hget⟩ := chunk_plan_length_core d c hc hd
  refine ⟨hlen, hget, ?_, ?_, ?_, ?_, ?_⟩
  · intro x
    constructor
    · rintro ⟨hx0, hxd⟩
      refine ⟨⌊x / (c : ℚ)⌋.toNat, ?_, ?_, ?_⟩
      · have h1 : ⌊x / (c : ℚ)⌋ ≤ ⌊d / (c : ℚ)⌋ :=
          Int.floor_le_floor ((div_le_div_iff_of_pos_right hc').mpr hxd.le)
        have h2 : (0 : ℤ) ≤ ⌊x / (c : ℚ)⌋ :=
          Int.floor_nonneg.mpr (div_nonneg hx0 hc'.le)
        rw [Int.toNat_of_nonneg h2]
        omega
      · have h2 : (0 : ℤ) ≤ ⌊x / (c : ℚ)⌋ :=
          Int.floor_nonneg.mpr (div_nonneg hx0 hc'.le)
        have hcast : ((⌊x / (c : ℚ)⌋.toNat : ℕ) : ℚ) = ((⌊x / (c : ℚ)⌋ : ℤ) : ℚ) := by
          rw [← Int.toNat_of_nonneg h2]
          push_cast
          rw [Int.toNat_of_nonneg h2]
        rw [hcast]
        exact (le_div_iff₀ hc').mp (Int.floor_le (x / (c : ℚ)))
      · have h2 : (0 : ℤ) ≤ ⌊x / (c : ℚ)⌋ :=
          Int.floor_nonneg.mpr (div_nonneg hx0 hc'.le)
        have hcast : ((⌊x / (c : ℚ)⌋.toNat : ℕ) : ℚ) = ((⌊x / (c : ℚ)⌋ : ℤ) : ℚ) := by
          rw [← Int.toNat_of_nonneg h2]
          push_cast
          rw [Int.toNat_of_nonneg h2]
        refine lt_min ?_ hxd
        rw [hcast]
        exact (div_lt_iff₀ hc').mp (Int.lt_floor_add_one (x / (c : ℚ)))
    · rintro ⟨i, _, h1, h2⟩
      constructor
      · calc (0 : ℚ) ≤ (i : ℚ) * (c : ℚ) := by positivity
          _ ≤ x := h1
      · exact lt_of_lt_of_le h2 (min_le_right _ _)
  · intro i j hij _
    constructor
    · exact mul_lt_mul_of_pos_right (by exact_mod_cast hij) hc'
    · refine le_trans (min_le_left _ _) ?_
      have : ((i : ℚ) + 1) ≤ (j : ℚ) := by exact_mod_cast hij
      exact mul_le_mul_of_nonneg_right this hc'.le
  · intro i hi
    refine lt_min (by nlinarith) ?_
    have h1 : ((i : ℤ) + 1) ≤ ⌊d / (c : ℚ)⌋ := by omega
    have h2 : ((i : ℚ) + 1) ≤ (⌊d / (c : ℚ)⌋ : ℚ) := by exact_mod_cast h1
    have h3 : ((i : ℚ) + 1) * (c : ℚ) ≤ d := by
      calc ((i : ℚ) + 1) * (c : ℚ) ≤ (⌊d / (c : ℚ)⌋ : ℚ) * (c : ℚ) :=
            mul_le_mul_of_nonneg_right h2 hc'.le
        _ ≤ d / (c : ℚ) * (c : ℚ) :=
            mul_le_mul_of_nonneg_right (Int.floor_le _) hc'.le
        _ = d := hqc
    calc (i : ℚ) * (c : ℚ) < ((i : ℚ) + 1) * (c : ℚ) := by nlinarith
      _ ≤ d := h3
  · intro hnm
    have hne : ((⌊d / (c : ℚ)⌋ : ℤ) : ℚ) ≠ d / (c : ℚ) := by
      intro heq
      exact hnm ⟨⌊d / (c : ℚ)⌋, by rw [heq, hqc]⟩
    have hlt : ((⌊d / (c : ℚ)⌋ : ℤ) : ℚ) < d / (c : ℚ) :=
      lt_of_le_of_ne (Int.floor_le _) hne
    have hceil : ⌊d / (c : ℚ)⌋ + 1 = ⌈d / (c : ℚ)⌉ := by
      have h1 : ⌊d / (c : ℚ)⌋ < ⌈d / (c : ℚ)⌉ := by
        have := Int.le_ceil (d / (c : ℚ))
        exact_mod_cast lt_of_lt_of_le hlt this
      have h2 := Int.ceil_le_floor_add_one (d / (c : ℚ))
      omega
    refine ⟨hceil, ?_⟩
    intro i hi
    refine lt_min (by nlinarith) ?_
    have h1 : (i : ℤ) ≤ ⌊d / (c : ℚ)⌋ := by omega
    have h2 : (i : ℚ) ≤ (⌊d / (c : ℚ)⌋ : ℚ) := by exact_mod_cast h1
    calc (i : ℚ) * (c : ℚ) ≤ (⌊d / (c : ℚ)⌋ : ℚ) * (c : ℚ) :=
          mul_le_mul_of_nonneg_right h2 hc'.le
      _ < d / (c : ℚ) * (c : ℚ) := mul_lt_mul_of_pos_right hlt hc'
      _ = d := hqc
  · rintro ⟨k, hk⟩
    have hq' : d / (c : ℚ) = (k : ℚ) := by
      rw [hk, mul_div_cancel_right₀ _ hc'.ne']
    have hflk : ⌊d / (c : ℚ)⌋ = k := by rw [hq', Int.floor_intCast]
    have hclk : ⌈d / (c : ℚ)⌉ = k := by rw [hq', Int.ceil_intCast]
    refine ⟨by omega, ?_⟩
    have hk1 : 1 ≤ k := by rw [← hflk]; exact hfl
    have hkt : ((k.toNat : ℕ) : ℤ) = k := Int.toNat_of_nonneg (by omega)
    have hktq : ((k.toNat : ℕ) : ℚ) = (k : ℚ) := by exact_mod_cast hkt
    rw [hflk]
    have hlt2 : ((k.toNat : ℕ) : ℤ) < ⌊d / (c : ℚ)⌋ + 1 := by omega
    rw [hget k.toNat hlt2, hktq]
    have hend : min (((k : ℚ) + 1) * (c : ℚ)) d = d := by
      apply min_eq_right
      rw [hk]
      nlinarith
    rw [hend, ← hk]

/-- Witness for C2 (amended) at the spec's 45-minute scenario
(`d = 2700`, `c = 1200`). -/
theorem claim_C2_plan_properties_witness :
    (chunk_plan 2700 1200).length = (⌊(2700 : ℚ) / ((1200 : ℤ) : ℚ)⌋ + 1).toNat :=
  (claim_C2_plan_properties 2700 1200 (by norm_num) (by norm_num)).1

/-- C2 counterexample: at `total_duration = 2400`, an exact multiple
of `max_segment_seconds = 1200`, the code plans 3 ranges while
`ceil(2400/1200) = 2`, and the final range `[2400, 2400)` is empty —
contradicting "exactly ceil(d/c) ranges" and "no empty ranges". -/
theorem claim_C2_counterexample :
    (chunk_plan 2400 1200).length = 3 ∧
    ⌈(2400 : ℚ) / ((1200 : ℤ) : ℚ)⌉ = 2 ∧
    chunk_plan 2400 1200 = [(0, 1200), (1200, 2400), (2400, 2400)] := by
  have hcast : ((1200 : ℤ) : ℚ) = 1200 := by norm_num
  have hno : ¬((2400 : ℚ) ≤ ((1200 : ℤ) : ℚ)) := by rw [hcast]; norm_num
  have hpy : pyInt ((2400 : ℚ) / ((1200 : ℤ) : ℚ) + 1) = 3 := by
    rw [hcast]
    unfold pyInt
    rw [if_neg (by norm_num)]
    norm_num
  refine ⟨?_, ?_, ?_⟩
  · rw [chunk_plan, if_neg hno, hpy]
    rfl
  · rw [hcast]
    norm_num
  · rw [chunk_plan, if_neg hno, hpy]
    have h3 : (3 : ℤ).toNat = 3 := rfl
    rw [h3]
    norm_num [List.range_succ]
